import Mathlib

/-!
Verification of the ImageSpark editing core (src/index.tsx): the edit/undo
history stack, the CSS-filter-string parsing used by `updateFilter` and the
preset-filter toggle, the zoom/pan viewport clamps, the export compositor of
`downloadEditedImage`, and the usage metering of `handleGenerateClick`.

Numbers that are JavaScript floats are modelled as rationals; strings are
modelled as Lean strings (lists of characters); canvas rasters are modelled as
pixel functions with premultiplied-alpha rational components.
-/

namespace ImageSpark

/-! ## Edit history stack (src/index.tsx, recordHistoryState / undoBtn / redoBtn)

The mutable module state `editHistory : string[]` and `historyIndex : number`
is modelled as a structure; the index is an integer exactly as in JavaScript.
-/

structure HistoryState where
  editHistory : List String
  historyIndex : Int
deriving DecidableEq, Repr

/-- `recordHistoryState(newFilter)` (src/index.tsx lines 764-771):
if `historyIndex < editHistory.length - 1` the array is truncated with
`slice(0, historyIndex + 1)`, then `newFilter` is pushed and the index set to
the new last position. -/
def recordHistoryState (s : HistoryState) (newFilter : String) : HistoryState :=
  let h :=
    if s.historyIndex < (s.editHistory.length : Int) - 1 then
      s.editHistory.take (s.historyIndex + 1).toNat
    else
      s.editHistory
  let h2 := h ++ [newFilter]
  { editHistory := h2, historyIndex := (h2.length : Int) - 1 }

/-- The `undoBtn` click handler (line 1776): decrement the cursor only when
`historyIndex > 0`. -/
def undoStep (s : HistoryState) : HistoryState :=
  if 0 < s.historyIndex then { s with historyIndex := s.historyIndex - 1 } else s

/-- The `redoBtn` click handler (line 1777): increment the cursor only when
`historyIndex < editHistory.length - 1`. -/
def redoStep (s : HistoryState) : HistoryState :=
  if s.historyIndex < (s.editHistory.length : Int) - 1 then
    { s with historyIndex := s.historyIndex + 1 }
  else s

/-- `openEditModal` (lines 810-812) and `resetAllBtn` (lines 1770-1772) both
reset the history to the single entry `'none'` with the cursor at 0. -/
def openHistory : HistoryState :=
  { editHistory := ["none"], historyIndex := 0 }

/-- The user-visible operations on the edit history. -/
inductive HistOp where
  | open_reset : HistOp
  | record : String → HistOp
  | undo : HistOp
  | redo : HistOp
deriving DecidableEq, Repr

def histStep (s : HistoryState) : HistOp → HistoryState
  | HistOp.open_reset => openHistory
  | HistOp.record f => recordHistoryState s f
  | HistOp.undo => undoStep s
  | HistOp.redo => redoStep s

/-- Running a sequence of history operations from a state. -/
def runHist (s : HistoryState) (ops : List HistOp) : HistoryState :=
  ops.foldl histStep s

/-- The cursor invariant `0 <= historyIndex <= editHistory.length - 1`. -/
def HistInv (s : HistoryState) : Prop :=
  0 ≤ s.historyIndex ∧ s.historyIndex ≤ (s.editHistory.length : Int) - 1

/-! ## Filter descriptor strings (src/index.tsx, updateFilter and friends)

`updateFilter` (lines 1048-1062) recovers structure from the serialized filter
style via the JavaScript regular expressions `/\w+\([^)]+\)/g` (outer scan)
and `/(\w+)\((.+)\)/` (split of one part into name and value).  The scanning
behaviour of this regex pair is modelled below on lists of characters: a match
is a maximal run of word characters immediately followed by `(`, at least one
non-`)` character, and `)`; scanning restarts right after each match and skips
one character when no match starts at the current position.
-/

/-- `\w` of a JavaScript regular expression: ASCII letters, digits, `_`. -/
def isWordChar (c : Char) : Bool := c.isAlphanum || c == '_'

/-- Attempt a match of `/\w+\([^)]+\)/` anchored at the start of `l`; on
success return the name, the value and the remaining input: a nonempty run of
word characters, `(`, a nonempty run of non-`)` characters, `)`. -/
def matchAt (l : List Char) : Option (List Char × List Char × List Char) :=
  let w := l.takeWhile isWordChar
  let r := l.dropWhile isWordChar
  if w = [] then none
  else if r.head? = some '(' then
    let r2 := r.tail
    let v := r2.takeWhile (fun c => !(c == ')'))
    let r3 := r2.dropWhile (fun c => !(c == ')'))
    if v = [] then none
    else if r3.head? = some ')' then some (w, v, r3.tail)
    else none
  else none

/-- Global scanning of `/\w+\([^)]+\)/g`, fuelled to make the recursion
structural; `jsScan` below instantiates the fuel with the input length. -/
def scanAux : Nat → List Char → List (List Char × List Char)
  | 0, _ => []
  | _ + 1, [] => []
  | fuel + 1, c :: cs =>
    match matchAt (c :: cs) with
    | some (w, v, rest) => (w, v) :: scanAux fuel rest
    | none => scanAux fuel cs

/-- All matches of `/\w+\([^)]+\)/g` in a character list, each already split
into name and value by `/(\w+)\((.+)\)/` (for parts of the matched shape the
two regexes agree on this split). -/
def jsScan (l : List Char) : List (List Char × List Char) :=
  scanAux l.length l

/-- The character list of one serialized entry, `name(value)`. -/
def partChars (p : List Char × List Char) : List Char :=
  p.1 ++ '(' :: (p.2 ++ [')'])

/-- `Array.prototype.join(' ')` on character lists. -/
def joinSpace : List (List Char) → List Char
  | [] => []
  | [l] => l
  | l :: ls => l ++ ' ' :: joinSpace ls

/-- `Map.prototype.set` of a JavaScript `Map`, on an insertion-ordered
association list: overwrite in place when the key exists, append otherwise. -/
def mapSet (m : List (List Char × List Char)) (k v : List Char) :
    List (List Char × List Char) :=
  if m.any (fun p => p.1 = k) then
    m.map (fun p => if p.1 = k then (k, v) else p)
  else
    m ++ [(k, v)]

/-- Building the `Map` of `updateFilter` by iterating `set` over the parts. -/
def buildMap (ps : List (List Char × List Char)) : List (List Char × List Char) :=
  ps.foldl (fun m p => mapSet m p.1 p.2) []

/-- `updateFilter(type, value)` (lines 1048-1062) on the character list of the
current `style.filter`: parse the current style (unless falsy or `'none'`)
into a map, set the entry for `type`, and serialize the map back, joining the
`name(value)` parts with spaces. -/
def updateFilterChars (currentFilterStyle : List Char) (typ value : List Char) :
    List Char :=
  let filters :=
    if currentFilterStyle ≠ [] ∧ currentFilterStyle ≠ "none".data then
      buildMap (jsScan currentFilterStyle)
    else []
  let filters2 := mapSet filters typ value
  joinSpace (filters2.map partChars)

/-- String-level wrapper of `updateFilterChars`. -/
def updateFilter (currentFilterStyle typ value : String) : String :=
  String.mk (updateFilterChars currentFilterStyle.data typ.data value.data)

/-- A well-formed filter-function name: nonempty, word characters only (this
is what `\w+` can produce, and excludes hyphenated names like `hue-rotate`). -/
abbrev GoodName (w : List Char) : Prop :=
  w ≠ [] ∧ ∀ c ∈ w, isWordChar c = true

/-- A well-formed filter-function argument: nonempty, no closing paren. -/
abbrev GoodValue (v : List Char) : Prop :=
  v ≠ [] ∧ ∀ c ∈ v, c ≠ ')'

/-- A well-formed `name(value)` entry. -/
abbrev GoodEntry (e : List Char × List Char) : Prop :=
  GoodName e.1 ∧ GoodValue e.2

/-- Serialization of an entry list to a descriptor, as produced by
`updateFilter`: the `name(value)` parts joined with single spaces. -/
def serializeEntries (es : List (List Char × List Char)) : List Char :=
  joinSpace (es.map partChars)

/-! ## Preset filter toggle (src/index.tsx, filtersGroup click handler and
updateActiveFilterButtons) -/

/-- `ADJUSTMENT_FILTER_NAMES` (line 305). -/
def ADJUSTMENT_FILTER_NAMES : List (List Char) :=
  ["brightness".data, "contrast".data, "saturate".data]

/-- `String.prototype.includes`: substring test. -/
def isSubstrList (pat : List Char) : List Char → Bool
  | [] => pat = []
  | c :: cs => pat.isPrefixOf (c :: cs) || isSubstrList pat cs

/-- `updateActiveFilterButtons` (lines 711-736): among the preset buttons
(each given by its nonempty `data-filter` value) whose value occurs in the
current filter style, the one with the strictly longest value is marked
active (the first such button wins ties).  Returns the `data-filter` value of
the active button, if any. -/
def bestMatch (buttons : List (List Char)) (style : List Char) :
    Option (List Char) :=
  buttons.foldl
    (fun acc fv =>
      if fv ≠ [] ∧ isSubstrList fv style = true ∧
          (match acc with | some b => b.length | none => 0) < fv.length then
        some fv
      else acc)
    none

/-- `String.prototype.trim` restricted to the whitespace characters that can
occur here. -/
def isJsSpace (c : Char) : Bool := c == ' ' || c == '\t' || c == '\n' || c == '\r'

def trimChars (l : List Char) : List Char :=
  ((l.dropWhile isJsSpace).reverse.dropWhile isJsSpace).reverse

/-- The adjustment parts of a filter style (filtersGroup handler, lines
1717-1718): the regex matches of the style, kept when one of the adjustment
names is a prefix of the matched part. -/
def adjustmentParts (style : List Char) : List (List Char) :=
  ((jsScan style).map partChars).filter
    (fun f => ADJUSTMENT_FILTER_NAMES.any (fun adj => adj.isPrefixOf f))

/-- The `filtersGroup` click handler (lines 1709-1730) for a preset button
whose `data-filter` value is `clicked`: the button counts as active when
`updateActiveFilterButtons` marked it active after the previous change
(modelled by recomputing `bestMatch` on the current style); the new style is
the adjustment parts joined with spaces, with `clicked` appended when the
button was not active, and trimmed. -/
def presetClick (buttons : List (List Char)) (style clicked : List Char) :
    List Char :=
  let wasActive := bestMatch buttons style = some clicked
  let adjustments := adjustmentParts style
  let newFilterStyle := joinSpace adjustments
  let newFilterStyle :=
    if wasActive then newFilterStyle else newFilterStyle ++ ' ' :: clicked
  trimChars newFilterStyle

/-! ## Viewport transform (src/index.tsx, handleWheel / handleTouchMove /
clampPan / handleMouseMove)

Scale and pan are JavaScript floats, modelled as rationals.
-/

/-- One zoom operation: a wheel step with negative `deltaY` (zoom in), a wheel
step with non-negative `deltaY` (zoom out), or a pinch step with the ratio of
the current to the previous inter-finger distance. -/
inductive ZoomOp where
  | wheelIn : ZoomOp
  | wheelOut : ZoomOp
  | pinch : ℚ → ZoomOp

/-- The update of `scale` performed by `handleWheel` (lines 1158-1175, zoom
factor 1.1) and by the pinch branch of `handleTouchMove` (line 1231). -/
def applyZoom (scale : ℚ) : ZoomOp → ℚ
  | ZoomOp.wheelIn => min 5 (scale * (11 / 10))
  | ZoomOp.wheelOut => max 1 (scale / (11 / 10))
  | ZoomOp.pinch ratio => max 1 (min 5 (scale * ratio))

/-- Running a sequence of zoom operations from a scale. -/
def runZoom (scale : ℚ) (ops : List ZoomOp) : ℚ :=
  ops.foldl applyZoom scale

/-- One axis of `clampPan` (lines 1123-1137):
`pan = max(min(0, container - scaled), min(pan, max(0, container - scaled)))`. -/
def clampAxis (container scaled pan : ℚ) : ℚ :=
  max (min 0 (container - scaled)) (min pan (max 0 (container - scaled)))

/-- A drag move (`handleMouseMove`, lines 1188-1195, or the one-finger branch
of `handleTouchMove`): the pan is set to initial-plus-delta and then clamped.
Any sequence of such moves is a fold of this step. -/
def panMove (container scaled : ℚ) (pan delta : ℚ) : ℚ :=
  clampAxis container scaled (pan + delta)

/-- On one axis, the scaled image interval `[pan, pan + scaled]` overlaps the
container interval `[0, container]`. -/
def axisOverlap (container scaled pan : ℚ) : Prop :=
  pan < container ∧ 0 < pan + scaled

/-! ## Export compositor (src/index.tsx, downloadEditedImage, lines 823-865)

Canvas pixels are modelled with premultiplied-alpha rational components; the
canvas compositing operations `source-over` (the default) and
`destination-in` are the standard Porter-Duff operators.  A CSS filter string
is interpreted by a pixelwise semantics `sem` (all filters reachable here --
brightness, contrast, saturate, sepia, grayscale, hue-rotate -- are pixelwise
colour operations); the claims under verification hold for every such
interpretation.
-/

@[ext]
structure Pixel where
  r : ℚ
  g : ℚ
  b : ℚ
  a : ℚ
deriving DecidableEq, Repr

/-- Porter-Duff `source-over` on premultiplied pixels (the default canvas
`globalCompositeOperation`). -/
def sourceOverPx (s d : Pixel) : Pixel :=
  { r := s.r + (1 - s.a) * d.r
    g := s.g + (1 - s.a) * d.g
    b := s.b + (1 - s.a) * d.b
    a := s.a + (1 - s.a) * d.a }

/-- Porter-Duff `destination-in` on premultiplied pixels: the destination is
kept only where the source is opaque. -/
def destInPx (s d : Pixel) : Pixel :=
  { r := d.r * s.a, g := d.g * s.a, b := d.b * s.a, a := d.a * s.a }

/-- A raster of a fixed size.  Pixels are total functions; positions outside
the size are irrelevant to the statements below. -/
structure Raster where
  width : Nat
  height : Nat
  px : Nat → Nat → Pixel

/-- The editor state read by `downloadEditedImage`: the clean original image
(decoded from `editModal.dataset.originalSrc` at its natural resolution), the
`style.filter` and `style.maskImage` of the filtered layer, the mask canvas
content (as resampled by `drawImage(maskCanvas, 0, 0, naturalWidth,
naturalHeight)` to the natural resolution), and the viewport transform. -/
structure EditorState where
  image : Raster
  filterStyle : String
  maskImageStyle : String
  maskPx : Nat → Nat → Pixel
  scale : ℚ
  panX : ℚ
  panY : ℚ

/-- `hasFilter` of `downloadEditedImage` (line 837): the style string is
truthy and not `'none'`. -/
def hasFilter (st : EditorState) : Bool :=
  !(st.filterStyle == "") && !(st.filterStyle == "none")

/-- `hasMask` of `downloadEditedImage` (line 836): `style.maskImage` is truthy
and not `'none'`. -/
def hasMask (st : EditorState) : Bool :=
  !(st.maskImageStyle == "") && !(st.maskImageStyle == "none")

/-- The raster produced by `downloadEditedImage` (lines 832-854): the canvas
is sized to the natural dimensions and the original image drawn; when a
filter is active, a second canvas receives the image drawn through the
filter; with a mask, that canvas is stencilled by the mask via
`destination-in` and then drawn over the base; without a mask the base canvas
is cleared and the filtered canvas drawn onto it. -/
def exportRaster (sem : String → Pixel → Pixel) (st : EditorState) : Raster :=
  { width := st.image.width
    height := st.image.height
    px := fun x y =>
      let base := st.image.px x y
      if hasFilter st then
        let temp := sem st.filterStyle (st.image.px x y)
        if hasMask st then
          sourceOverPx (destInPx (st.maskPx x y) temp) base
        else temp
      else base }

/-- Modelled from the spec: the raster asserted by the specification to be the
whole export result when a mask is present -- "the unfiltered base raster is
fully replaced by the mask-stenciled filtered raster".  This is the filtered
image stencilled by the mask, with no contribution from the base. -/
def maskStenciledFiltered (sem : String → Pixel → Pixel) (st : EditorState) :
    Raster :=
  { width := st.image.width
    height := st.image.height
    px := fun x y => destInPx (st.maskPx x y) (sem st.filterStyle (st.image.px x y)) }

/-- A concrete pixelwise interpretation of filter strings (the identity
effect), used to evaluate the compositor on concrete states. -/
def identityFilterSem : String → Pixel → Pixel := fun _ p => p

def opaqueRed : Pixel := { r := 1, g := 0, b := 0, a := 1 }

def transparentPx : Pixel := { r := 0, g := 0, b := 0, a := 0 }

/-- A concrete editor state: an opaque red 2x2 image, an active `sepia(1)`
filter, and a drawn mask that is transparent on the column `x = 0` and opaque
elsewhere. -/
def maskedExportState : EditorState :=
  { image := { width := 2, height := 2, px := fun _ _ => opaqueRed }
    filterStyle := "sepia(1)"
    maskImageStyle := "url(mask)"
    maskPx := fun x _ => if x = 0 then transparentPx else opaqueRed
    scale := 1
    panX := 0
    panY := 0 }

/-- A concrete editor state with a drawn mask but no active filter. -/
def noFilterExportState : EditorState :=
  { image := { width := 3, height := 2, px := fun _ _ => opaqueRed }
    filterStyle := "none"
    maskImageStyle := "url(mask)"
    maskPx := fun _ _ => opaqueRed
    scale := 2
    panX := 7
    panY := -3 }

/-- Concrete preset-button `data-filter` values (the buttons live in the HTML
document, which is not part of the sources; these fragments follow the spec's
preset vocabulary: sepia, grayscale, hue-rotate). -/
def presetButtons : List (List Char) :=
  ["sepia(1)".data, "grayscale(1)".data, "hue-rotate(90deg)".data]

/-! ## Usage metering (src/index.tsx, usageManager and handleGenerateClick) -/

/-- `USAGE_LIMIT` (line 25). -/
def USAGE_LIMIT : Nat := 5

/-- `usageManager.recordGeneration` (lines 85-91) on the stored counter for
the current day: increment only below the limit. -/
def recordGeneration (count : Nat) : Nat :=
  if count < USAGE_LIMIT then count + 1 else count

/-- `usageManager.canGenerate` (lines 80-84): a user is logged in and the
counter is below the limit. -/
def canGenerate (loggedIn : Bool) (count : Nat) : Bool :=
  loggedIn && decide (count < USAGE_LIMIT)

/-- The state touched by `handleGenerateClick` that matters for metering: the
usage counter and the gallery of generated results. -/
structure GenState where
  usageCount : Nat
  gallery : List String
deriving DecidableEq, Repr

/-- Processing of one settled generation promise (lines 1003-1022): a
fulfilled request with an image adds it to the gallery; a failed request only
marks its placeholder.  Neither touches the usage counter. -/
def processResult (s : GenState) (outcome : Option String) : GenState :=
  match outcome with
  | some img => { s with gallery := img :: s.gallery }
  | none => s

/-- `handleGenerateClick` (lines 949-1036) restricted to metering and
results: bail out unchanged when `canGenerate` fails; otherwise call
`recordGeneration` once, issue the batch of `numberOfVariations` requests and
process each settled outcome.  `outcomes` lists the per-request outcomes of
the batch (its length is the number of variations). -/
def handleGenerateClick (loggedIn : Bool) (s : GenState)
    (outcomes : List (Option String)) : GenState :=
  if canGenerate loggedIn s.usageCount then
    let s1 : GenState := { s with usageCount := recordGeneration s.usageCount }
    outcomes.foldl processResult s1
  else s

/-! ## Lemmas: history invariants -/

lemma histInv_open : HistInv openHistory := by
  constructor <;> simp [openHistory]

lemma histInv_record (s : HistoryState) (f : String) (h : HistInv s) :
    HistInv (recordHistoryState s f) := by
  obtain ⟨h0, h1⟩ := h
  unfold recordHistoryState HistInv
  by_cases hc : s.historyIndex < (s.editHistory.length : Int) - 1
  · simp [hc]
  · simp [hc]

lemma histInv_undo (s : HistoryState) (h : HistInv s) : HistInv (undoStep s) := by
  obtain ⟨h0, h1⟩ := h
  unfold undoStep HistInv
  by_cases hc : 0 < s.historyIndex <;> simp [hc] <;> omega

lemma histInv_redo (s : HistoryState) (h : HistInv s) : HistInv (redoStep s) := by
  obtain ⟨h0, h1⟩ := h
  unfold redoStep HistInv
  by_cases hc : s.historyIndex < (s.editHistory.length : Int) - 1 <;>
    simp [hc] <;> omega

lemma histInv_step (s : HistoryState) (op : HistOp) (h : HistInv s) :
    HistInv (histStep s op) := by
  cases op with
  | open_reset => exact histInv_open
  | record f => exact histInv_record s f h
  | undo => exact histInv_undo s h
  | redo => exact histInv_redo s h

lemma histInv_run (ops : List HistOp) (s : HistoryState) (h : HistInv s) :
    HistInv (runHist s ops) := by
  induction ops generalizing s with
  | nil => exact h
  | cons op rest ih => exact ih (histStep s op) (histInv_step s op h)

/-! ## Lemmas: the regex scan -/

lemma takeWhile_all_append {α : Type} (p : α → Bool) :
    ∀ (l1 l2 : List α), (∀ c ∈ l1, p c = true) →
      (l1 ++ l2).takeWhile p = l1 ++ l2.takeWhile p := by
  intro l1
  induction l1 with
  | nil => intro l2 _; rfl
  | cons a l ih =>
    intro l2 h
    have ha : p a = true := h a (by simp)
    simp only [List.cons_append, List.takeWhile_cons_of_pos ha,
      ih l2 (fun c hc => h c (by simp [hc]))]

lemma dropWhile_all_append {α : Type} (p : α → Bool) :
    ∀ (l1 l2 : List α), (∀ c ∈ l1, p c = true) →
      (l1 ++ l2).dropWhile p = l2.dropWhile p := by
  intro l1
  induction l1 with
  | nil => intro l2 _; rfl
  | cons a l ih =>
    intro l2 h
    have ha : p a = true := h a (by simp)
    simp only [List.cons_append, List.dropWhile_cons_of_pos ha,
      ih l2 (fun c hc => h c (by simp [hc]))]

/-- A match succeeds exactly on a serialized good entry, whatever follows. -/
lemma matchAt_part (w v X : List Char) (hw : GoodName w) (hv : GoodValue v) :
    matchAt (partChars (w, v) ++ X) = some (w, v, X) := by
  obtain ⟨hw1, hw2⟩ := hw
  obtain ⟨hv1, hv2⟩ := hv
  have hshape : partChars (w, v) ++ X = w ++ '(' :: (v ++ ')' :: X) := by
    simp [partChars]
  have ht : (w ++ '(' :: (v ++ ')' :: X)).takeWhile isWordChar = w := by
    rw [takeWhile_all_append _ w _ hw2,
      List.takeWhile_cons_of_neg (by decide : ¬ isWordChar '(' = true)]
    simp
  have hd : (w ++ '(' :: (v ++ ')' :: X)).dropWhile isWordChar
      = '(' :: (v ++ ')' :: X) := by
    rw [dropWhile_all_append _ w _ hw2,
      List.dropWhile_cons_of_neg (by decide : ¬ isWordChar '(' = true)]
  have hv2b : ∀ c ∈ v, (fun c => !(c == ')')) c = true := by
    intro c hc
    simpa using hv2 c hc
  have ht2 : (v ++ ')' :: X).takeWhile (fun c => !(c == ')')) = v := by
    rw [takeWhile_all_append _ v _ hv2b,
      List.takeWhile_cons_of_neg (by simp)]
    simp
  have hd2 : (v ++ ')' :: X).dropWhile (fun c => !(c == ')')) = ')' :: X := by
    rw [dropWhile_all_append _ v _ hv2b,
      List.dropWhile_cons_of_neg (by simp)]
  rw [hshape]
  unfold matchAt
  simp only [ht, hd, List.head?_cons, List.tail_cons, ht2, hd2]
  simp [hw1, hv1]

/-- No match starts at a non-word character. -/
lemma matchAt_not_word {c : Char} (cs : List Char) (h : isWordChar c = false) :
    matchAt (c :: cs) = none := by
  unfold matchAt
  rw [List.takeWhile_cons_of_neg (by simp [h])]
  simp

lemma matchAt_nil : matchAt [] = none := by
  unfold matchAt
  simp

/-- A successful match consumes at least one character. -/
lemma matchAt_some_len {l w v rest : List Char}
    (h : matchAt l = some (w, v, rest)) : rest.length < l.length := by
  unfold matchAt at h
  by_cases h1 : l.takeWhile isWordChar = []
  · simp [h1] at h
  · rw [if_neg h1] at h
    by_cases h2 : (l.dropWhile isWordChar).head? = some '('
    · rw [if_pos h2] at h
      by_cases h3 :
          (l.dropWhile isWordChar).tail.takeWhile (fun c => !(c == ')')) = []
      · simp [h3] at h
      · rw [if_neg h3] at h
        by_cases h4 :
            ((l.dropWhile isWordChar).tail.dropWhile
              (fun c => !(c == ')'))).head? = some ')'
        · rw [if_pos h4] at h
          simp only [Option.some.injEq, Prod.mk.injEq] at h
          obtain ⟨hw, hv, hrest⟩ := h
          have e1 : l.takeWhile isWordChar ++ l.dropWhile isWordChar = l :=
            List.takeWhile_append_dropWhile _ _
          have e2 : (l.dropWhile isWordChar).tail.takeWhile (fun c => !(c == ')'))
              ++ (l.dropWhile isWordChar).tail.dropWhile (fun c => !(c == ')'))
              = (l.dropWhile isWordChar).tail :=
            List.takeWhile_append_dropWhile _ _
          have len1 : 1 ≤ (l.takeWhile isWordChar).length :=
            List.length_pos.mpr h1
          have hdw : l.dropWhile isWordChar ≠ [] := by
            intro hcontra
            rw [hcontra] at h2
            simp at h2
          have len2 : 1 ≤ (l.dropWhile isWordChar).length :=
            List.length_pos.mpr hdw
          have len3 : 1 ≤
              ((l.dropWhile isWordChar).tail.takeWhile
                (fun c => !(c == ')'))).length :=
            List.length_pos.mpr h3
          have hr3 : (l.dropWhile isWordChar).tail.dropWhile
              (fun c => !(c == ')')) ≠ [] := by
            intro hcontra
            rw [hcontra] at h4
            simp at h4
          have len4 : 1 ≤
              ((l.dropWhile isWordChar).tail.dropWhile
                (fun c => !(c == ')'))).length :=
            List.length_pos.mpr hr3
          have lenl : (l.takeWhile isWordChar).length
              + (l.dropWhile isWordChar).length = l.length := by
            rw [← List.length_append, e1]
          have lent : (l.dropWhile isWordChar).tail.length
              = (l.dropWhile isWordChar).length - 1 := by
            simp [List.length_tail]
          have lent2 : ((l.dropWhile isWordChar).tail.takeWhile
                  (fun c => !(c == ')'))).length
                + ((l.dropWhile isWordChar).tail.dropWhile
                  (fun c => !(c == ')'))).length
              = (l.dropWhile isWordChar).tail.length := by
            rw [← List.length_append, e2]
          have lenrest : rest.length
              = ((l.dropWhile isWordChar).tail.dropWhile
                  (fun c => !(c == ')'))).length - 1 := by
            rw [← hrest]
            simp [List.length_tail]
          omega
        · rw [if_neg h4] at h
          exact absurd h (by simp)
    · rw [if_neg h2] at h
      exact absurd h (by simp)

/-- The fuelled scan is independent of the fuel once the fuel covers the
input length; in particular it agrees with `jsScan`. -/
lemma scanAux_stable :
    ∀ (n : Nat) (l : List Char), l.length ≤ n →
      ∀ fuel, l.length ≤ fuel → scanAux fuel l = jsScan l := by
  intro n
  induction n with
  | zero =>
    intro l hl fuel _
    have hnil : l = [] := by
      cases l with
      | nil => rfl
      | cons c cs => simp at hl
    subst hnil
    cases fuel <;> rfl
  | succ n ih =>
    intro l hl fuel hf
    cases l with
    | nil => cases fuel <;> rfl
    | cons c cs =>
      cases fuel with
      | zero => simp at hf
      | succ f =>
        have hlen : (c :: cs).length = cs.length + 1 := by simp
        cases hm : matchAt (c :: cs) with
        | some t =>
          obtain ⟨w, v, rest⟩ := t
          have hrest := matchAt_some_len hm
          rw [hlen] at hrest
          have step1 : scanAux (f + 1) (c :: cs) = (w, v) :: scanAux f rest := by
            simp [scanAux, hm]
          have step2 : scanAux (cs.length + 1) (c :: cs)
              = (w, v) :: scanAux cs.length rest := by
            simp [scanAux, hm]
          have ih1 : scanAux f rest = jsScan rest :=
            ih rest (by omega) f (by omega)
          have ih2 : scanAux cs.length rest = jsScan rest :=
            ih rest (by omega) cs.length (by omega)
          show scanAux (f + 1) (c :: cs) = scanAux (c :: cs).length (c :: cs)
          rw [step1, hlen, step2, ih1, ih2]
        | none =>
          have step1 : scanAux (f + 1) (c :: cs) = scanAux f cs := by
            simp [scanAux, hm]
          have step2 : scanAux (cs.length + 1) (c :: cs)
              = scanAux cs.length cs := by
            simp [scanAux, hm]
          have ih1 : scanAux f cs = jsScan cs :=
            ih cs (by omega) f (by omega)
          have ih2 : scanAux cs.length cs = jsScan cs :=
            ih cs (by omega) cs.length (by omega)
          show scanAux (f + 1) (c :: cs) = scanAux (c :: cs).length (c :: cs)
          rw [step1, hlen, step2, ih1, ih2]

lemma jsScan_nil : jsScan [] = [] := rfl

lemma jsScan_match {l w v rest : List Char}
    (h : matchAt l = some (w, v, rest)) :
    jsScan l = (w, v) :: jsScan rest := by
  cases l with
  | nil => rw [matchAt_nil] at h; exact absurd h (by simp)
  | cons c cs =>
    have hrest := matchAt_some_len h
    have hlen : (c :: cs).length = cs.length + 1 := by simp
    show scanAux (c :: cs).length (c :: cs) = _
    rw [hlen]
    have step : scanAux (cs.length + 1) (c :: cs)
        = (w, v) :: scanAux cs.length rest := by
      simp [scanAux, h]
    rw [step, scanAux_stable rest.length rest le_rfl cs.length
      (by rw [hlen] at hrest; omega)]

lemma jsScan_skip {c : Char} {cs : List Char}
    (h : matchAt (c :: cs) = none) :
    jsScan (c :: cs) = jsScan cs := by
  have hlen : (c :: cs).length = cs.length + 1 := by simp
  show scanAux (c :: cs).length (c :: cs) = _
  rw [hlen]
  simp [scanAux, h]
  rfl

/-- Scanning a serialized good entry followed by anything yields the entry
then the scan of the remainder. -/
lemma jsScan_part {w v : List Char} (X : List Char)
    (hw : GoodName w) (hv : GoodValue v) :
    jsScan (partChars (w, v) ++ X) = (w, v) :: jsScan X :=
  jsScan_match (matchAt_part w v X hw hv)

/-- Scanning skips a leading space. -/
lemma jsScan_space (r : List Char) : jsScan (' ' :: r) = jsScan r :=
  jsScan_skip (matchAt_not_word r (by decide))

lemma serializeEntries_nil : serializeEntries [] = [] := rfl

lemma serializeEntries_one (e : List Char × List Char) :
    serializeEntries [e] = partChars e := rfl

lemma serializeEntries_cons_cons (e e2 : List Char × List Char)
    (es : List (List Char × List Char)) :
    serializeEntries (e :: e2 :: es)
      = partChars e ++ ' ' :: serializeEntries (e2 :: es) := rfl

/-- The scan of a serialized good entry list followed by anything. -/
lemma jsScan_serialize_append (es : List (List Char × List Char))
    (hg : ∀ e ∈ es, GoodEntry e) (X : List Char) :
    jsScan (serializeEntries es ++ X) = es ++ jsScan X := by
  induction es with
  | nil => simp [serializeEntries_nil]
  | cons e es ih =>
    obtain ⟨w, v⟩ := e
    obtain ⟨hw, hv⟩ := hg (w, v) (by simp)
    cases es with
    | nil =>
      rw [serializeEntries_one, jsScan_part X hw hv]
      simp
    | cons e2 es2 =>
      rw [serializeEntries_cons_cons]
      have hshape : (partChars (w, v) ++ ' ' :: serializeEntries (e2 :: es2)) ++ X
          = partChars (w, v) ++ (' ' :: (serializeEntries (e2 :: es2) ++ X)) := by
        simp
      rw [hshape, jsScan_part _ hw hv, jsScan_space,
        ih (fun e he => hg e (by simp [he]))]
      simp

/-- Round trip: the scan recovers a serialized good entry list exactly. -/
lemma jsScan_serialize (es : List (List Char × List Char))
    (hg : ∀ e ∈ es, GoodEntry e) :
    jsScan (serializeEntries es) = es := by
  have h := jsScan_serialize_append es hg []
  simpa [jsScan_nil] using h

/-! ## Lemmas: the JavaScript Map -/

lemma mapSet_of_not_mem (m : List (List Char × List Char))
    (k v : List Char) (h : ∀ p ∈ m, p.1 ≠ k) :
    mapSet m k v = m ++ [(k, v)] := by
  unfold mapSet
  rw [if_neg]
  intro hc
  obtain ⟨p, hp, hpk⟩ := List.any_eq_true.mp hc
  exact h p hp (by simpa using hpk)

lemma buildMap_go (es : List (List Char × List Char)) :
    ∀ m, (∀ e ∈ es, ∀ p ∈ m, p.1 ≠ e.1) →
      (es.map Prod.fst).Nodup →
      es.foldl (fun m p => mapSet m p.1 p.2) m = m ++ es := by
  induction es with
  | nil => intro m _ _; simp
  | cons e es ih =>
    intro m hdisj hnodup
    have hstep : mapSet m e.1 e.2 = m ++ [e] := by
      rw [mapSet_of_not_mem m e.1 e.2 (hdisj e (by simp))]
    simp only [List.foldl_cons, hstep]
    rw [ih (m ++ [e]) ?disj ?nodup]
    · simp
    case disj =>
      intro e2 he2 p hp
      rcases List.mem_append.mp hp with hp1 | hp1
      · exact hdisj e2 (by simp [he2]) p hp1
      · have hpe : p = e := by simpa using hp1
        subst hpe
        simp only [List.map_cons, List.nodup_cons] at hnodup
        intro hc
        exact hnodup.1 (hc ▸ List.mem_map_of_mem Prod.fst he2)
    case nodup =>
      simp only [List.map_cons, List.nodup_cons] at hnodup
      exact hnodup.2

lemma buildMap_eq_self (es : List (List Char × List Char))
    (h : (es.map Prod.fst).Nodup) : buildMap es = es := by
  have hg := buildMap_go es [] (by simp) h
  simpa [buildMap] using hg

lemma mapSet_mem_self (m : List (List Char × List Char)) (k v : List Char) :
    (k, v) ∈ mapSet m k v := by
  unfold mapSet
  split
  case isTrue h =>
    obtain ⟨p, hp, hpk⟩ := List.any_eq_true.mp h
    have hpk2 : p.1 = k := by simpa using hpk
    exact List.mem_map.mpr ⟨p, hp, by simp [hpk2]⟩
  case isFalse h =>
    exact List.mem_append_right _ (by simp)

lemma mapSet_mem_of_ne (m : List (List Char × List Char))
    (k v : List Char) (p : List Char × List Char)
    (hp : p ∈ m) (hne : p.1 ≠ k) : p ∈ mapSet m k v := by
  unfold mapSet
  split
  · exact List.mem_map.mpr ⟨p, hp, by simp [hne]⟩
  · exact List.mem_append_left _ hp

/-! ## Lemmas: serialized descriptors and trimming -/

lemma word_not_space {c : Char} (h : isWordChar c = true) :
    isJsSpace c = false := by
  by_contra hc
  have hs : isJsSpace c = true := by simpa using hc
  simp only [isJsSpace, Bool.or_eq_true, beq_iff_eq] at hs
  rcases hs with ((h1 | h1) | h1) | h1 <;> subst h1 <;> simp [isWordChar] at h

/-- The serialization of a nonempty good entry list starts with a word
character. -/
lemma serialize_head_word {e : List Char × List Char}
    (es : List (List Char × List Char)) (h : GoodEntry e) :
    ∃ c cs, serializeEntries (e :: es) = c :: cs ∧ isWordChar c = true := by
  obtain ⟨⟨h1, h2⟩, _⟩ := h
  obtain ⟨a, as, ha⟩ : ∃ a as, e.1 = a :: as := by
    cases he : e.1 with
    | nil => exact absurd he h1
    | cons a as => exact ⟨a, as, rfl⟩
  have haw : isWordChar a = true := h2 a (by simp [ha])
  cases es with
  | nil =>
    refine ⟨a, as ++ '(' :: (e.2 ++ [')']), ?_, haw⟩
    rw [serializeEntries_one]
    simp [partChars, ha]
  | cons e2 es2 =>
    refine ⟨a, as ++ '(' :: (e.2 ++ [')'])
      ++ ' ' :: serializeEntries (e2 :: es2), ?_, haw⟩
    rw [serializeEntries_cons_cons]
    simp [partChars, ha]

lemma serialize_ne_nil {e : List Char × List Char}
    (es : List (List Char × List Char)) (h : GoodEntry e) :
    serializeEntries (e :: es) ≠ [] := by
  obtain ⟨c, cs, hc, _⟩ := serialize_head_word es h
  simp [hc]

/-- The serialization of a nonempty good entry list ends with `)`. -/
lemma serialize_getLast (es : List (List Char × List Char))
    (hne : es ≠ []) (hg : ∀ e ∈ es, GoodEntry e) :
    (serializeEntries es).getLast? = some ')' := by
  induction es with
  | nil => exact absurd rfl hne
  | cons e es ih =>
    cases es with
    | nil =>
      rw [serializeEntries_one]
      have hp : partChars e = (e.1 ++ '(' :: e.2) ++ [')'] := by
        simp [partChars]
      rw [hp, List.getLast?_concat]
    | cons e2 es2 =>
      rw [serializeEntries_cons_cons]
      have hne2 : serializeEntries (e2 :: es2) ≠ [] :=
        serialize_ne_nil es2 (hg e2 (by simp))
      have step : (partChars e ++ ' ' :: serializeEntries (e2 :: es2)).getLast?
          = (' ' :: serializeEntries (e2 :: es2)).getLast? :=
        List.getLast?_append_of_ne_nil _ (by simp)
      rw [step]
      have step2 : (' ' :: serializeEntries (e2 :: es2)).getLast?
          = (serializeEntries (e2 :: es2)).getLast? := by
        have : (' ' :: serializeEntries (e2 :: es2))
            = [' '] ++ serializeEntries (e2 :: es2) := by simp
        rw [this, List.getLast?_append_of_ne_nil _ hne2]
      rw [step2]
      exact ih (by simp) (fun e3 he3 => hg e3 (by simp [he3]))

/-- The serialization of a nonempty good entry list is not the sentinel
`none` (it contains an opening paren). -/
lemma serialize_ne_none {e : List Char × List Char}
    (es : List (List Char × List Char)) :
    serializeEntries (e :: es) ≠ "none".data := by
  intro hEq
  have hmem : '(' ∈ serializeEntries (e :: es) := by
    cases es with
    | nil =>
      rw [serializeEntries_one]
      simp [partChars]
    | cons e2 es2 =>
      rw [serializeEntries_cons_cons]
      simp [partChars]
  rw [hEq] at hmem
  exact absurd hmem (by decide)

/-- Trimming is the identity on lists with non-space first and last
characters. -/
lemma trimChars_eq_self {l : List Char}
    (h1 : ∀ c, l.head? = some c → isJsSpace c = false)
    (h2 : ∀ c, l.getLast? = some c → isJsSpace c = false) :
    trimChars l = l := by
  cases l with
  | nil => rfl
  | cons c cs =>
    unfold trimChars
    rw [List.dropWhile_cons_of_neg (by simp [h1 c rfl])]
    cases hr : (c :: cs).reverse with
    | nil => simp at hr
    | cons d ds =>
      have hd : isJsSpace d = false := by
        apply h2
        rw [← List.head?_reverse, hr]
        rfl
      have hdrop : List.dropWhile isJsSpace (d :: ds) = d :: ds :=
        List.dropWhile_cons_of_neg (by simp [hd])
      have hback : (d :: ds).reverse = c :: cs := by
        rw [← hr, List.reverse_reverse]
      rw [hdrop, hback]

/-! ## Lemmas: viewport and usage -/

lemma applyZoom_bounds (s : ℚ) (op : ZoomOp) (h1 : 1 ≤ s) (h5 : s ≤ 5) :
    1 ≤ applyZoom s op ∧ applyZoom s op ≤ 5 := by
  cases op with
  | wheelIn =>
    constructor
    · apply le_min (by norm_num)
      nlinarith
    · exact min_le_left _ _
  | wheelOut =>
    constructor
    · exact le_max_left _ _
    · apply max_le (by norm_num)
      rw [div_le_iff₀ (by norm_num)]
      nlinarith
  | pinch ratio =>
    constructor
    · exact le_max_left _ _
    · exact max_le (by norm_num) (min_le_left _ _)

lemma runZoom_bounds (ops : List ZoomOp) :
    ∀ s : ℚ, 1 ≤ s → s ≤ 5 → 1 ≤ runZoom s ops ∧ runZoom s ops ≤ 5 := by
  induction ops with
  | nil => intro s h1 h5; exact ⟨h1, h5⟩
  | cons op ops ih =>
    intro s h1 h5
    obtain ⟨g1, g5⟩ := applyZoom_bounds s op h1 h5
    exact ih (applyZoom s op) g1 g5

lemma clampAxis_overlap (c s p : ℚ) (hc : 0 < c) (hs : 0 < s) :
    axisOverlap c s (clampAxis c s p) := by
  refine ⟨?_, ?_⟩ <;>
    simp only [clampAxis, min_def, max_def] <;>
    split_ifs <;> linarith

lemma processResults_usage (outs : List (Option String)) :
    ∀ s : GenState, (outs.foldl processResult s).usageCount = s.usageCount := by
  induction outs with
  | nil => intro s; rfl
  | cons o os ih =>
    intro s
    rw [List.foldl_cons, ih]
    cases o <;> rfl

/-! ## The claims -/

/-- C1: `recordHistoryState(newDescriptor)` truncates the snapshot sequence to
the indices `[0..position]`, appends the new descriptor, and sets the cursor
to the new last index; in particular after open, record(A), record(B), undo,
record(C) the history is exactly `[none, A, C]` with the cursor at 2 and redo
is a no-op. -/
theorem recordHistoryState_truncates_appends (s : HistoryState) (f A B C : String)
    (h : HistInv s) :
    (recordHistoryState s f).editHistory
        = s.editHistory.take (s.historyIndex + 1).toNat ++ [f]
    ∧ (recordHistoryState s f).historyIndex
        = ((recordHistoryState s f).editHistory.length : Int) - 1
    ∧ runHist openHistory
        [HistOp.record A, HistOp.record B, HistOp.undo, HistOp.record C]
        = { editHistory := ["none", A, C], historyIndex := 2 }
    ∧ redoStep { editHistory := ["none", A, C], historyIndex := 2 }
        = { editHistory := ["none", A, C], historyIndex := 2 } := by
  obtain ⟨h0, h1⟩ := h
  refine ⟨?_, ?_, ?_, ?_⟩
  · unfold recordHistoryState
    by_cases hc : s.historyIndex < (s.editHistory.length : Int) - 1
    · simp [hc]
    · have hEq : s.historyIndex = (s.editHistory.length : Int) - 1 := by omega
      have hTake : (s.historyIndex + 1).toNat = s.editHistory.length := by omega
      simp [hc, hTake, List.take_length]
  · unfold recordHistoryState
    by_cases hc : s.historyIndex < (s.editHistory.length : Int) - 1 <;> simp [hc]
  · rfl
  · rfl

theorem recordHistoryState_truncates_appends_witness :
    (recordHistoryState openHistory "brightness(1.2)").editHistory
        = openHistory.editHistory.take (openHistory.historyIndex + 1).toNat
          ++ ["brightness(1.2)"] :=
  (recordHistoryState_truncates_appends openHistory "brightness(1.2)" "A" "B" "C"
    (by constructor <;> simp [openHistory])).1

/-- C2: every state reachable from the single-entry initial state by
open/reset, record, undo and redo has its cursor inside
`[0, editHistory.length - 1]`; undo is a no-op at cursor 0, redo is a no-op at
the last index, and neither changes the sequence length. -/
theorem editHistory_cursor_invariant (ops : List HistOp) :
    HistInv (runHist openHistory ops)
    ∧ ((runHist openHistory ops).historyIndex = 0 →
        undoStep (runHist openHistory ops) = runHist openHistory ops)
    ∧ ((runHist openHistory ops).historyIndex
          = ((runHist openHistory ops).editHistory.length : Int) - 1 →
        redoStep (runHist openHistory ops) = runHist openHistory ops)
    ∧ (undoStep (runHist openHistory ops)).editHistory.length
        = (runHist openHistory ops).editHistory.length
    ∧ (redoStep (runHist openHistory ops)).editHistory.length
        = (runHist openHistory ops).editHistory.length := by
  refine ⟨histInv_run ops openHistory histInv_open, ?_, ?_, ?_, ?_⟩
  · intro h0
    unfold undoStep
    rw [h0]
    simp
  · intro hlast
    unfold redoStep
    rw [hlast]
    simp
  · unfold undoStep
    split <;> rfl
  · unfold redoStep
    split <;> rfl

theorem editHistory_cursor_invariant_witness :
    HistInv (runHist openHistory [HistOp.record "A", HistOp.undo])
    ∧ undoStep (runHist openHistory [HistOp.record "A", HistOp.undo])
        = runHist openHistory [HistOp.record "A", HistOp.undo] :=
  ⟨(editHistory_cursor_invariant [HistOp.record "A", HistOp.undo]).1,
   (editHistory_cursor_invariant [HistOp.record "A", HistOp.undo]).2.1 (by decide)⟩

/-- C6: after any sequence of wheel-zoom and pinch-zoom operations with
arbitrary input magnitudes, starting from the initial scale 1, the viewport
scale lies in the closed interval `[1, 5]`. -/
theorem viewport_scale_clamped (ops : List ZoomOp) :
    1 ≤ runZoom 1 ops ∧ runZoom 1 ops ≤ 5 :=
  runZoom_bounds ops 1 le_rfl (by norm_num)

/-- C7: each pan axis is clamped between `min(0, container - scaledImage)` and
`max(0, container - scaledImage)`, so after any sequence of drag moves
followed by the clamp the scaled image interval always overlaps the container
interval: no reachable state places the image fully off-screen. -/
theorem pan_clamp_keeps_overlap (container scaled : ℚ)
    (hc : 0 < container) (hs : 0 < scaled) (p0 : ℚ) (deltas : List ℚ) :
    axisOverlap container scaled
      (deltas.foldl (panMove container scaled) (clampAxis container scaled p0))
    ∧ clampAxis container scaled p0
        = max (min 0 (container - scaled))
            (min p0 (max 0 (container - scaled))) := by
  constructor
  · induction deltas generalizing p0 with
    | nil => exact clampAxis_overlap container scaled p0 hc hs
    | cons d ds ih =>
      simp only [List.foldl_cons]
      exact ih (clampAxis container scaled p0 + d)
  · rfl

theorem pan_clamp_keeps_overlap_witness :
    axisOverlap 100 50
      ([(3 : ℚ), -1000].foldl (panMove 100 50) (clampAxis 100 50 0)) :=
  (pan_clamp_keeps_overlap 100 50 (by norm_num) (by norm_num) 0
    [(3 : ℚ), -1000]).1

/-- C8: the exported raster is independent of the viewport transform: two
editor states identical except in scale, panX and panY export identically,
and the output raster always has the image's natural dimensions. -/
theorem export_independent_of_viewport (sem : String → Pixel → Pixel)
    (st : EditorState) (sc px0 py0 : ℚ) :
    exportRaster sem { st with scale := sc, panX := px0, panY := py0 }
        = exportRaster sem st
    ∧ (exportRaster sem st).width = st.image.width
    ∧ (exportRaster sem st).height = st.image.height :=
  ⟨rfl, rfl, rfl⟩

/-- C9: a generate-click that passes the quota check increments the usage
counter exactly once for the whole batch -- `recordGeneration` is applied a
single time, before the requests are issued, regardless of the number of
variation requests and of how many of them succeed or fail. -/
theorem usage_charged_once_per_batch (loggedIn : Bool) (s : GenState)
    (outcomes : List (Option String))
    (h : canGenerate loggedIn s.usageCount = true) :
    (handleGenerateClick loggedIn s outcomes).usageCount
        = recordGeneration s.usageCount
    ∧ (handleGenerateClick loggedIn s outcomes).usageCount
        = s.usageCount + 1 := by
  unfold handleGenerateClick
  rw [if_pos h]
  have hu := processResults_usage outcomes
    { s with usageCount := recordGeneration s.usageCount }
  refine ⟨hu, ?_⟩
  rw [hu]
  have hlt : s.usageCount < USAGE_LIMIT := by
    unfold canGenerate at h
    simp at h
    exact h.2
  simp [recordGeneration, hlt]

theorem usage_charged_once_per_batch_witness :
    (handleGenerateClick true { usageCount := 0, gallery := [] }
        [some "a", none, none]).usageCount = recordGeneration 0 :=
  (usage_charged_once_per_batch true { usageCount := 0, gallery := [] }
    [some "a", none, none] (by decide)).1

/-- C10: when the filter descriptor is `'none'` (or empty) the export returns
the original image unchanged at native resolution, even when a mask has been
drawn: the whole filter-and-mask compositing step is guarded by the presence
of a filter. -/
theorem export_noFilter_returns_original (sem : String → Pixel → Pixel)
    (st : EditorState)
    (hf : st.filterStyle = "none" ∨ st.filterStyle = "") :
    exportRaster sem st = st.image := by
  have h : hasFilter st = false := by
    rcases hf with h | h <;> simp [hasFilter, h]
  simp only [exportRaster, h]
  rfl

theorem export_noFilter_returns_original_witness :
    exportRaster identityFilterSem noFilterExportState
      = noFilterExportState.image :=
  export_noFilter_returns_original identityFilterSem noFilterExportState
    (Or.inl rfl)

/-- C3, counterexample: with a filter active and a mask present, the export is
not the mask-stenciled filtered raster alone -- at a pixel where the mask is
transparent the unfiltered base shows through (here the opaque red base),
whereas the mask-stenciled filtered raster is transparent there.  The base is
therefore not fully replaced. -/
theorem export_mask_claim_counterexample :
    (exportRaster identityFilterSem maskedExportState).px 0 0 = opaqueRed
    ∧ (maskStenciledFiltered identityFilterSem maskedExportState).px 0 0
        = transparentPx
    ∧ exportRaster identityFilterSem maskedExportState
        ≠ maskStenciledFiltered identityFilterSem maskedExportState := by
  have h1 : (exportRaster identityFilterSem maskedExportState).px 0 0
      = opaqueRed := by
    simp only [exportRaster, maskedExportState, identityFilterSem,
      hasFilter, hasMask]
    norm_num [sourceOverPx, destInPx, opaqueRed, transparentPx]
  have h2 : (maskStenciledFiltered identityFilterSem maskedExportState).px 0 0
      = transparentPx := by
    simp only [maskStenciledFiltered, maskedExportState, identityFilterSem]
    norm_num [destInPx, opaqueRed, transparentPx]
  refine ⟨h1, h2, ?_⟩
  intro hEq
  have hpx := congrArg (fun r => r.px 0 0) hEq
  simp only at hpx
  rw [h1, h2] at hpx
  have : (1 : ℚ) = 0 := congrArg Pixel.a hpx
  norm_num at this

/-- C3, amended: with a filter active, the export composites the
mask-stenciled filtered raster over the unfiltered base with `source-over`:
at a pixel where the mask and the filtered pixel are fully opaque the
filtered pixel fully replaces the base (no blending); at a pixel where the
mask is transparent the unfiltered base remains; with no mask the filtered
raster fully replaces the base. -/
theorem export_mask_composite_amended (sem : String → Pixel → Pixel)
    (st : EditorState) (x y : Nat) (hf : hasFilter st = true) :
    (hasMask st = false →
        (exportRaster sem st).px x y = sem st.filterStyle (st.image.px x y))
    ∧ (hasMask st = true → (st.maskPx x y).a = 1 →
        (sem st.filterStyle (st.image.px x y)).a = 1 →
        (exportRaster sem st).px x y = sem st.filterStyle (st.image.px x y))
    ∧ (hasMask st = true → (st.maskPx x y).a = 0 →
        (exportRaster sem st).px x y = st.image.px x y) := by
  refine ⟨?_, ?_, ?_⟩
  · intro hm
    simp [exportRaster, hf, hm]
  · intro hm ha hfa
    simp only [exportRaster, hf, hm, if_true]
    ext <;> simp [sourceOverPx, destInPx, ha, hfa]
  · intro hm ha
    simp only [exportRaster, hf, hm, if_true]
    ext <;> simp [sourceOverPx, destInPx, ha]

theorem export_mask_composite_amended_witness :
    (exportRaster identityFilterSem maskedExportState).px 1 0
      = identityFilterSem maskedExportState.filterStyle
          (maskedExportState.image.px 1 0) :=
  (export_mask_composite_amended identityFilterSem maskedExportState 1 0
    (by rfl)).2.1 (by rfl) (by rfl) (by rfl)

/-- C4, counterexample: `updateFilter` does not preserve a `hue-rotate` entry.
The descriptor `hue-rotate(90deg)` (the serialization of the single entry
`hue-rotate` with value `90deg`) becomes `rotate(90deg) brightness(1.2)`
after `updateFilter('brightness', '1.2')`: the regex `\w+` cannot match the
hyphen, so the entry is re-parsed with the different filter name `rotate`,
and `hue-rotate` occurs nowhere in the result. -/
theorem updateFilter_hueRotate_counterexample :
    "hue-rotate(90deg)".data
        = serializeEntries [("hue-rotate".data, "90deg".data)]
    ∧ updateFilter "hue-rotate(90deg)" "brightness" "1.2"
        = "rotate(90deg) brightness(1.2)"
    ∧ ("hue-rotate".data, "90deg".data)
        ∉ jsScan ("rotate(90deg) brightness(1.2)".data)
    ∧ isSubstrList "hue-rotate".data
        ("rotate(90deg) brightness(1.2)".data) = false := by
  refine ⟨by decide, by decide, by decide, by decide⟩

/-- C4, amended: for a descriptor whose entries have names made only of word
characters (which excludes hyphenated names such as `hue-rotate`) and
pairwise distinct, `updateFilter(name, value)` inserts or overwrites the
entry for `name` and preserves every other entry unchanged -- same filter
name and same value -- in the returned serialized descriptor. -/
theorem updateFilter_preserves_entries_amended
    (es : List (List Char × List Char)) (typ value : List Char)
    (hg : ∀ e ∈ es, GoodEntry e) (hnodup : (es.map Prod.fst).Nodup) :
    updateFilterChars (serializeEntries es) typ value
        = serializeEntries (mapSet es typ value)
    ∧ (typ, value) ∈ mapSet es typ value
    ∧ ∀ e ∈ es, e.1 ≠ typ → e ∈ mapSet es typ value := by
  refine ⟨?_, mapSet_mem_self es typ value,
    fun e he hne => mapSet_mem_of_ne es typ value e he hne⟩
  cases es with
  | nil =>
    simp only [updateFilterChars, serializeEntries_nil]
    rw [if_neg (by simp)]
    rfl
  | cons e es2 =>
    have hnil : serializeEntries (e :: es2) ≠ [] :=
      serialize_ne_nil es2 (hg e (by simp))
    have hnn : serializeEntries (e :: es2) ≠ "none".data :=
      serialize_ne_none es2
    simp only [updateFilterChars]
    rw [if_pos ⟨hnil, hnn⟩, jsScan_serialize _ hg, buildMap_eq_self _ hnodup]
    rfl

theorem updateFilter_preserves_entries_amended_witness :
    updateFilterChars
        (serializeEntries [("brightness".data, "1.2".data)])
        "contrast".data "0.9".data
      = serializeEntries
          (mapSet [("brightness".data, "1.2".data)]
            "contrast".data "0.9".data) :=
  (updateFilter_preserves_entries_amended [("brightness".data, "1.2".data)]
    "contrast".data "0.9".data (by decide) (by decide)).1

/-- C5: starting from a descriptor whose entries are all adjustment entries
(brightness, contrast, saturate), clicking the same preset button twice --
toggling it on (the button is not active, and becomes the active best match)
then off -- returns exactly to the prior adjustment-only descriptor, with all
adjustment values undisturbed. -/
theorem presetToggle_roundtrip (buttons : List (List Char))
    (es : List (List Char × List Char)) (clicked : List Char)
    (hg : ∀ e ∈ es, GoodEntry e)
    (hadj : ∀ e ∈ es,
      (ADJUSTMENT_FILTER_NAMES.any
        (fun adj => adj.isPrefixOf (partChars e))) = true)
    (hne : es ≠ [])
    (hclicked_ne : clicked ≠ [])
    (hclicked_last : isJsSpace (clicked.getLastD ')') = false)
    (hclicked_adj : ∀ p ∈ jsScan clicked,
      (ADJUSTMENT_FILTER_NAMES.any
        (fun adj => adj.isPrefixOf (partChars p))) = false)
    (h1 : bestMatch buttons (serializeEntries es) ≠ some clicked)
    (h2 : bestMatch buttons (serializeEntries es ++ ' ' :: clicked)
        = some clicked) :
    presetClick buttons (serializeEntries es) clicked
        = serializeEntries es ++ ' ' :: clicked
    ∧ presetClick buttons (serializeEntries es ++ ' ' :: clicked) clicked
        = serializeEntries es := by
  obtain ⟨e, es2, rfl⟩ : ∃ e es2, es = e :: es2 := by
    cases es with
    | nil => exact absurd rfl hne
    | cons e es2 => exact ⟨e, es2, rfl⟩
  obtain ⟨c0, cs0, hhead, hword⟩ :=
    serialize_head_word es2 (hg e (by simp))
  have hheadNoSpace : ∀ c', (serializeEntries (e :: es2)).head? = some c' →
      isJsSpace c' = false := by
    intro c' hc'
    rw [hhead] at hc'
    simp only [List.head?_cons, Option.some.injEq] at hc'
    rw [← hc']
    exact word_not_space hword
  have hAdjSelf : adjustmentParts (serializeEntries (e :: es2))
      = (e :: es2).map partChars := by
    unfold adjustmentParts
    rw [jsScan_serialize _ hg, List.filter_eq_self.mpr]
    intro part hpart
    obtain ⟨e2, he2, rfl⟩ := List.mem_map.mp hpart
    exact hadj e2 he2
  have hJoin : joinSpace ((e :: es2).map partChars)
      = serializeEntries (e :: es2) := rfl
  have hfirst : presetClick buttons (serializeEntries (e :: es2)) clicked
      = serializeEntries (e :: es2) ++ ' ' :: clicked := by
    simp only [presetClick]
    rw [if_neg h1, hAdjSelf, hJoin]
    apply trimChars_eq_self
    · intro c' hc'
      apply hheadNoSpace
      rw [hhead] at hc' ⊢
      simp only [List.cons_append, List.head?_cons, Option.some.injEq] at hc'
      simp [hc']
    · intro c' hc'
      rw [List.getLast?_append_of_ne_nil _ (by simp)] at hc'
      have hsplit : (' ' :: clicked) = [' '] ++ clicked := by simp
      rw [hsplit, List.getLast?_append_of_ne_nil _ hclicked_ne] at hc'
      have : clicked.getLastD ')' = c' := by
        rw [List.getLastD_eq_getLast?, hc']
        rfl
      rw [← this]
      exact hclicked_last
  refine ⟨hfirst, ?_⟩
  have hAdjTwo : adjustmentParts (serializeEntries (e :: es2) ++ ' ' :: clicked)
      = (e :: es2).map partChars := by
    unfold adjustmentParts
    rw [jsScan_serialize_append _ hg, jsScan_space, List.map_append,
      List.filter_append]
    rw [List.filter_eq_self.mpr ?hself, List.filter_eq_nil_iff.mpr ?hnil]
    · simp
    case hself =>
      intro part hpart
      obtain ⟨e2, he2, rfl⟩ := List.mem_map.mp hpart
      exact hadj e2 he2
    case hnil =>
      intro part hpart
      obtain ⟨p, hp, rfl⟩ := List.mem_map.mp hpart
      simp [hclicked_adj p hp]
  simp only [presetClick]
  rw [if_pos h2, hAdjTwo, hJoin]
  apply trimChars_eq_self
  · exact hheadNoSpace
  · intro c' hc'
    rw [serialize_getLast (e :: es2) (by simp) hg] at hc'
    simp only [Option.some.injEq] at hc'
    rw [← hc']
    decide

theorem presetToggle_roundtrip_witness :
    presetClick presetButtons
        (serializeEntries
          [("brightness".data, "1.2".data), ("contrast".data, "0.9".data)])
        "sepia(1)".data
      = serializeEntries
          [("brightness".data, "1.2".data), ("contrast".data, "0.9".data)]
        ++ ' ' :: "sepia(1)".data :=
  (presetToggle_roundtrip presetButtons
    [("brightness".data, "1.2".data), ("contrast".data, "0.9".data)]
    "sepia(1)".data (by decide) (by decide) (by decide) (by decide)
    (by decide) (by decide) (by decide) (by decide)).1

end ImageSpark
